import Mathlib

/-!
Shallow embedding of `src/tmpacc/TemporalAccumulator.py`.

Python `datetime` values are modelled by the structure `DT` below: a Gregorian
calendar date (year, month, day) together with the time of day in microseconds
(Python's `datetime` resolution).  Python years are bounded by `1 ≤ year ≤ 9999`;
we keep the lower bound in `ValidDT` and idealize the upper bound away (unbounded
`Nat` years), which only widens the domain of the theorems.  Comparison of
`datetime` values is lexicographic on (year, month, day, time-of-day).

`timedelta` addition of a non-negative number of microseconds is modelled by
`addUsec`: the time of day is normalized modulo the number of microseconds in a
day and the date part is advanced one calendar day at a time (`succDay`), which
agrees with Python's absolute-timeline arithmetic on valid naive datetimes.
-/

namespace Tmpacc

/-- Number of microseconds in one day. -/
def usecPerDay : Nat := 86400000000

/-- A Python `datetime.datetime` value (naive): Gregorian date plus
time of day in microseconds. -/
structure DT where
  year : Nat
  month : Nat
  day : Nat
  usec : Nat
deriving DecidableEq, Repr

instance : Inhabited DT := ⟨⟨1, 1, 1, 0⟩⟩

/-- The leap-year test exactly as written in `Interval.next` (Months branch):
`year % 4 == 0 and not year % 100 == 0 or year % 400 == 0`
(Python `and` binds tighter than `or`). -/
def isLeap (y : Nat) : Bool :=
  (y % 4 == 0 && !(y % 100 == 0)) || y % 400 == 0

/-- The month-length table from the Months branch of `Interval.next`:
`[31, 29 if leap else 28, 31, 30, 31, 30, 31, 31, 30, 31, 30, 31]`. -/
def monthLengths (y : Nat) : List Nat :=
  [31, if isLeap y then 29 else 28, 31, 30, 31, 30, 31, 31, 30, 31, 30, 31]

/-- `monthLengths y [month - 1]`; months are numbered 1..12.  The default value
31 is never reached for months in range. -/
def daysInMonth (y m : Nat) : Nat :=
  (monthLengths y).getD (m - 1) 31

/-- Validity of a `DT` as a Python `datetime`: date in range, time of day in
range (the Python upper bound `year ≤ 9999` is idealized away). -/
def ValidDT (d : DT) : Prop :=
  1 ≤ d.year ∧ 1 ≤ d.month ∧ d.month ≤ 12 ∧ 1 ≤ d.day ∧
    d.day ≤ daysInMonth d.year d.month ∧ d.usec < usecPerDay

instance (d : DT) : Decidable (ValidDT d) := by
  unfold ValidDT; exact inferInstance

/-- Strict lexicographic order on the date part only (year, month, day). -/
def dLT (a b : DT) : Prop :=
  a.year < b.year ∨ (a.year = b.year ∧
    (a.month < b.month ∨ (a.month = b.month ∧ a.day < b.day)))

/-- Equality of the date parts. -/
def dEQ (a b : DT) : Prop :=
  a.year = b.year ∧ a.month = b.month ∧ a.day = b.day

/-- Python `datetime` comparison `<`: lexicographic on
(year, month, day, time-of-day). -/
def dtLT (a b : DT) : Prop :=
  dLT a b ∨ (dEQ a b ∧ a.usec < b.usec)

/-- Python `datetime` comparison `<=`. -/
def dtLE (a b : DT) : Prop :=
  dtLT a b ∨ a = b

instance (a b : DT) : Decidable (dLT a b) := by unfold dLT; exact inferInstance
instance (a b : DT) : Decidable (dEQ a b) := by unfold dEQ; exact inferInstance
instance (a b : DT) : Decidable (dtLT a b) := by unfold dtLT; exact inferInstance
instance (a b : DT) : Decidable (dtLE a b) := by unfold dtLE; exact inferInstance

/-- Advance a `datetime` by one calendar day, keeping the time of day.  This is
Python `d + timedelta(days=1)` restricted to valid dates. -/
def succDay : DT → DT
  | ⟨y, m, dd, u⟩ =>
    if dd < daysInMonth y m then ⟨y, m, dd + 1, u⟩
    else if m < 12 then ⟨y, m + 1, 1, u⟩
    else ⟨y + 1, 1, 1, u⟩

/-- Advance a `datetime` by `n` calendar days. -/
def addDays (d : DT) : Nat → DT
  | 0 => d
  | n + 1 => succDay (addDays d n)

/-- `d + timedelta(microseconds=delta)` for `delta ≥ 0`: normalize the time of
day and carry whole days into the date part. -/
def addUsec (d : DT) (delta : Nat) : DT :=
  let t := d.usec + delta
  addDays ⟨d.year, d.month, d.day, t % usecPerDay⟩ (t / usecPerDay)

/-- The temporal base units of the source (`Milliseconds` .. `Years`). -/
inductive TUnit where
  | Milliseconds | Seconds | Minutes | Hours | Days | Weeks | Months | Years
deriving DecidableEq, Repr

/-- `Interval`: a calendar step of `scalar` copies of a base unit.  The spec
requires the scalar to be a positive integer count; we model it as `Nat`. -/
structure Interval where
  unit : TUnit
  scalar : Nat
deriving DecidableEq, Repr

/-- `Interval.next`, translated branch by branch from the source.
Sub-day/day/week units are exact `timedelta` additions.  The Months branch
computes the target year/month with carry and clamps the day with the
`monthLengths` table.  The Years branch models `replace(year=year+scalar)`,
whose `ValueError` fallback (reached exactly when the source date is Feb 29 and
the target year is not a leap year) sets the date to Feb 28. -/
def Interval.next (i : Interval) (d : DT) : DT :=
  match i.unit with
  | .Milliseconds => addUsec d (i.scalar * 1000)
  | .Seconds => addUsec d (i.scalar * 1000000)
  | .Minutes => addUsec d (i.scalar * 60000000)
  | .Hours => addUsec d (i.scalar * 3600000000)
  | .Days => addUsec d (i.scalar * usecPerDay)
  | .Weeks => addUsec d (i.scalar * (7 * usecPerDay))
  | .Months =>
    let m0 := d.month - 1 + i.scalar
    let y := d.year + m0 / 12
    let m := m0 % 12 + 1
    ⟨y, m, min d.day (daysInMonth y m), d.usec⟩
  | .Years =>
    if d.month = 2 ∧ d.day = 29 ∧ isLeap (d.year + i.scalar) = false then
      ⟨d.year + i.scalar, 2, 28, d.usec⟩
    else
      ⟨d.year + i.scalar, d.month, d.day, d.usec⟩

/-- A coarse strictly monotone measure of a date (mixed-radix over-approximation
of the day count).  Used only to bound the number of iterations of the date
generation loops; its value is otherwise meaningless. -/
def mu (d : DT) : Nat := d.year * 435 + d.month * 31 + d.day

/-- The body of `Calendar.generate_dates`:
`while current <= end: append current; current += timedelta(days=1)`.
The loop is expressed with an explicit iteration bound (`fuel`); the wrapper
`generate_dates` supplies a bound that is large enough for every valid pair of
datetimes, so the truncation branch is never taken (see `genDatesFuel_stable`
below). -/
def genDatesFuel : Nat → DT → DT → List DT
  | 0, _, _ => []
  | n + 1, current, e =>
    if dtLE current e then current :: genDatesFuel n (addUsec current usecPerDay) e
    else []

/-- `Calendar.generate_dates(self)` as a function of the start and end
datetimes. -/
def generate_dates (start e : DT) : List DT :=
  genDatesFuel (mu e + 1 - mu start) start e

/-- Errors raised by `Calendar`: the explicit `ValueError` of `fromstr` for a
string matching neither date pattern, and the `ValueError` raised inside
`datetime.fromisoformat` when a pattern-matching string carries an
out-of-range component. -/
inductive CalErr where
  | invalidFormat
  | invalidDate
deriving DecidableEq, Repr

/-- The core shape accepted by the regex `^\d{4}-\d{2}-\d{2}$`, checked
positionally: exactly ten characters, dashes at positions 4 and 7, digits
elsewhere.  `\d` is modelled as an ASCII digit 0-9; Python's `\d` also
accepts other Unicode decimal digits, which this development does not model —
the C8 theorem is therefore stated for ASCII strings, on which the model of
the regex is exact. -/
def dateShape (cs : List Char) : Bool :=
  cs.length == 10 && cs.getD 4 ' ' == '-' && cs.getD 7 ' ' == '-' &&
    ([0, 1, 2, 3, 5, 6, 8, 9].all fun i => (cs.getD i ' ').isDigit)

/-- The core shape accepted by `^\d{4}-\d{2}-\d{2}T\d{2}:\d{2}:\d{2}$`,
checked positionally like `dateShape`. -/
def dateTimeShape (cs : List Char) : Bool :=
  cs.length == 19 && cs.getD 4 ' ' == '-' && cs.getD 7 ' ' == '-' &&
    cs.getD 10 ' ' == 'T' && cs.getD 13 ' ' == ':' && cs.getD 16 ' ' == ':' &&
    ([0, 1, 2, 3, 5, 6, 8, 9, 11, 12, 14, 15, 17, 18].all
      fun i => (cs.getD i ' ').isDigit)

/-- In an anchored Python pattern, `$` matches at the end of the string and
also just before a single newline that ends the string; stripping that
newline reduces both cases to the core shape. -/
def stripTrailingNewline (cs : List Char) : List Char :=
  if cs.getLast? = some (Char.ofNat 10) then cs.dropLast else cs

/-- `re.match(r'^\d{4}-\d{2}-\d{2}$', s)` as a Boolean (exact on ASCII
strings; see `dateShape`). -/
def matchDate (s : String) : Bool := dateShape (stripTrailingNewline s.toList)

/-- `re.match(r'^\d{4}-\d{2}-\d{2}T\d{2}:\d{2}:\d{2}$', s)` as a Boolean
(exact on ASCII strings; see `dateShape`). -/
def matchDateTime (s : String) : Bool := dateTimeShape (stripTrailingNewline s.toList)

/-- Numeric value of an ASCII digit character. -/
def digitVal (c : Char) : Nat := c.toNat - 48

/-- The two-digit number at positions `i`, `i+1`. -/
def num2 (cs : List Char) (i : Nat) : Nat :=
  digitVal (cs.getD i '0') * 10 + digitVal (cs.getD (i + 1) '0')

/-- The four-digit number at positions `i` .. `i+3`. -/
def num4 (cs : List Char) (i : Nat) : Nat :=
  digitVal (cs.getD i '0') * 1000 + digitVal (cs.getD (i + 1) '0') * 100 +
    digitVal (cs.getD (i + 2) '0') * 10 + digitVal (cs.getD (i + 3) '0')

/-- The (year, month, day) denoted by a string in strict `YYYY-MM-DD` shape
(meaningful only when `dateShape` holds of it). -/
def parseDate (s : String) : Nat × Nat × Nat :=
  (num4 s.toList 0, num2 s.toList 5, num2 s.toList 8)

/-- The (year, month, day, hour, minute, second) denoted by a string in strict
`YYYY-MM-DDTHH:MM:SS` shape. -/
def parseDateTime (s : String) : Nat × Nat × Nat × Nat × Nat × Nat :=
  (num4 s.toList 0, num2 s.toList 5, num2 s.toList 8,
   num2 s.toList 11, num2 s.toList 14, num2 s.toList 17)

/-- The range checks performed by `datetime.fromisoformat` on an already
shape-correct string: Python years are 1..9999, months 1..12, days bounded by
the month length, and time-of-day fields in range. -/
def isoInRange (y m d hh mi ss : Nat) : Prop :=
  1 ≤ y ∧ y ≤ 9999 ∧ 1 ≤ m ∧ m ≤ 12 ∧ 1 ≤ d ∧ d ≤ daysInMonth y m ∧
    hh ≤ 23 ∧ mi ≤ 59 ∧ ss ≤ 59

instance (y m d hh mi ss : Nat) : Decidable (isoInRange y m d hh mi ss) := by
  unfold isoInRange; exact inferInstance

/-- `datetime.fromisoformat`, modelled on the inputs `fromstr` can pass it (a
regex-matching string, or such a string with `"T00:00:00"` appended): it
succeeds exactly on the strict 19-character ASCII `YYYY-MM-DDTHH:MM:SS` shape
with all components in range, and raises `ValueError` otherwise — in
particular on the trailing-newline and non-ASCII-digit strings that the
regexes also let through (both pre- and post-3.11 CPython parsers reject those
on these inputs). -/
def pyFromisoformat (s : String) : Except CalErr DT :=
  if dateTimeShape s.toList then
    if isoInRange (num4 s.toList 0) (num2 s.toList 5) (num2 s.toList 8)
        (num2 s.toList 11) (num2 s.toList 14) (num2 s.toList 17) then
      .ok ⟨num4 s.toList 0, num2 s.toList 5, num2 s.toList 8,
        ((num2 s.toList 11 * 60 + num2 s.toList 14) * 60 + num2 s.toList 17) * 1000000⟩
    else .error .invalidDate
  else .error .invalidDate

/-- `Calendar.fromstr`: try the `YYYY-MM-DD` pattern (appending `"T00:00:00"`
to the whole matched string, newline included when present), then the
`YYYY-MM-DDTHH:MM:SS` pattern, else raise the
`ValueError("Invalid date string format ...")`. -/
def fromstr (s : String) : Except CalErr DT :=
  if matchDate s then pyFromisoformat (s ++ "T00:00:00")
  else if matchDateTime s then pyFromisoformat s
  else .error .invalidFormat

/-- ASCII-only strings: the domain on which the `\d`-as-ASCII-digit model of
the source regexes is exact. -/
def AsciiOnly (s : String) : Prop := ∀ c ∈ s.toList, c.toNat < 128

instance (s : String) : Decidable (AsciiOnly s) := by
  unfold AsciiOnly; exact inferInstance

/-- A constructed `Calendar`: start and end instants plus the generated daily
series (`endD` stands for the source's `end` attribute, which is a reserved
word in Lean). -/
structure CalendarS where
  start : DT
  endD : DT
  series : List DT
deriving DecidableEq, Repr

/-- `Calendar.__init__` for already-typed datetime arguments. -/
def Calendar.ofDates (start e : DT) : CalendarS :=
  ⟨start, e, generate_dates start e⟩

/-- The affinity tags of the source. -/
inductive Affinity where
  | Categorical | Numerical | Temporal
deriving DecidableEq, Repr

/-- The aggregation tags of the source (including the `Identity` default). -/
inductive Aggregation where
  | CumulativeSum | MovingAverage | LastValue | MaxValue | MinValue | Identity
deriving DecidableEq, Repr

/-- `DataSeries` with value type `α`: the source stores only the series and the
affinity (its `aggregation` constructor parameter is dropped; see
`DataSeries.init`). -/
structure DataSeries (α : Type) where
  series : List α
  affinity : Affinity
deriving DecidableEq, Repr

/-- `DataSeries.__init__(self, series, affinity, aggregation=Identity)`:
the body assigns `self.series` and `self.affinity` and never reads or stores
`aggregation`. -/
def DataSeries.init {α : Type} (series : List α) (affinity : Affinity)
    (aggregation : Aggregation) : DataSeries α :=
  let _ := aggregation
  ⟨series, affinity⟩

/-- `StaticMap`: an opaque wrapper around caller-supplied values, passed
through unmodified; the values are modelled as strings. -/
structure StaticMap where
  values : List String
deriving DecidableEq, Repr

/-- A Python value as stored in the mapping returned by `categorize`:
an insertion-ordered dict (modelled as an association list), a list of
datetimes (the zero-category branch stores `temporal_dimension.series`), or a
list of row positions.  The source never builds a `nats` value; it exists only
so that the spec's expected leaf payload (a list of row positions) is
expressible for comparison. -/
inductive PyVal where
  | dict : List (String × PyVal) → PyVal
  | vals : List DT → PyVal
  | nats : List Nat → PyVal

/-- Insert one root-to-leaf key path into an insertion-ordered nested dict:
if the key is absent at the current level it is appended with a fresh empty
dict (Python dicts preserve insertion order), then the walk descends.  This is
the effect of one iteration of the `i` loop of `categorize` (the level-0 insert
plus the `j` descent). -/
def insertPath (es : List (String × PyVal)) : List String → List (String × PyVal)
  | [] => es
  | k :: rest =>
    let es' := if es.any (fun e => e.1 = k) then es else es ++ [(k, .dict [])]
    es'.map (fun e =>
      if e.1 = k then
        (e.1, match e.2 with
              | .dict cs => .dict (insertPath cs rest)
              | v => v)
      else e)

/-- The rows `0 .. n-1` of the category dimensions, folded in order into the
nested dict; row `i` contributes the key path `[c[i] for c in cats]`.
Out-of-range indexing (`getD`) never happens for equal-length dimensions, which
the spec guarantees upstream. -/
def catFold (cats : List (List String)) : Nat → List (String × PyVal)
  | 0 => []
  | i + 1 => insertPath (catFold cats i) (cats.map (fun c => c.getD i ""))

/-- `TemporalAccumulator.categorize`: with no category dimensions a single
`"__all__"` entry holding `temporal_dimension.series`; otherwise the nested
first-seen-ordered dict built row by row from the category dimensions. -/
def categorize (temporal : List DT) (cats : List (List String)) : PyVal :=
  if cats.isEmpty then
    .dict [("__all__", .vals temporal)]
  else
    .dict (catFold cats (cats.headI).length)

/-- The state assembled by `TemporalAccumulator.__init__`.  The source's final
assignment `self.processed_data = self.accumulate()` has no counterpart here:
`accumulate` is syntactically incomplete in the source (its loop body ends in
an assignment with no right-hand side), so no state past the shown fields is
ever produced. -/
structure AccumulatorState where
  temporal_dimension : List DT
  catagories : List (List String)
  quantities : List (List Int)
  static_maps : List StaticMap
  calendar : CalendarS
  interval : Interval
deriving Repr

/-- `TemporalAccumulator.__init__`, for arguments already in list form (the
source also accepts a single series or `None` for `catagories`/`quantities`
and normalizes them to a list; we model the normalized list directly).
No length validation of any kind is performed.  When no calendar is supplied
the default is `Calendar(temporal_dimension.series[0],
temporal_dimension.series[-1])` — the first and last elements, not the
extrema.  Python raises `IndexError` on an empty temporal series; `headI` /
`getLastI` return the `Inhabited` default there. -/
def TemporalAccumulator.init (temporal_dimension : List DT)
    (catagories : List (List String)) (quantities : List (List Int))
    (static_maps : List StaticMap) (calendar : Option CalendarS)
    (interval : Interval) : AccumulatorState :=
  { temporal_dimension := temporal_dimension
    catagories := catagories
    quantities := quantities
    static_maps := static_maps
    calendar := match calendar with
      | some c => c
      | none => Calendar.ofDates temporal_dimension.headI temporal_dimension.getLastI
    interval := interval }

/-- Modelled from the spec: Python's `min` over a nonempty series — the fold
keeps the current value unless a strictly smaller one appears.  Used to state
the spec's "calendar defaults to the inclusive range spanning the temporal
dimension's min/max", which is the comparison target for the default-calendar
claim. -/
def specMinD (ts : List DT) : DT :=
  match ts with
  | [] => default
  | x :: xs => xs.foldl (fun acc b => if dtLT b acc then b else acc) x

/-- Modelled from the spec: Python's `max` over a nonempty series. -/
def specMaxD (ts : List DT) : DT :=
  match ts with
  | [] => default
  | x :: xs => xs.foldl (fun acc b => if dtLT acc b then b else acc) x

/-- Modelled from the spec: the calendar "spanning the temporal dimension's
min/max". -/
def specMinMaxCalendar (ts : List DT) : CalendarS :=
  Calendar.ofDates (specMinD ts) (specMaxD ts)

/-- Modelled from the spec: the source's `accumulate()` is syntactically
incomplete (its loop body ends in an assignment with no right-hand side and it
indexes `accumulation_map` with keys that were never inserted), so the
reduction engine is missing from the source.  Following §4.4 step 2 of the
spec, the bucket boundaries are produced by stepping the interval from the
calendar's start while the boundary does not exceed the calendar's end.  As in
`genDatesFuel`, the loop carries an explicit iteration bound supplied by the
wrapper `bucketStarts`. -/
def bucketStartsFuel (i : Interval) : Nat → DT → DT → List DT
  | 0, _, _ => []
  | n + 1, current, e =>
    if dtLE current e then current :: bucketStartsFuel i n (i.next current) e
    else []

/-- Modelled from the spec (§4.4 step 2): the ordered bucket boundaries
`b0, b1, ...` covering the calendar range, `b0` the calendar start and
`b(k+1) = interval.next(bk)`.  The iteration bound is generous: an interval
step with a positive scalar advances a valid datetime by at least one
microsecond. -/
def bucketStarts (i : Interval) (start e : DT) : List DT :=
  bucketStartsFuel i ((mu e + 1 - mu start) * usecPerDay) start e

/-- Modelled from the spec (§4.4 steps 4-5): the sum of the quantity values of
the rows whose temporal value falls in the half-open bucket `[b, i.next b)`. -/
def cellSum (i : Interval) (b : DT) (rows : List (DT × Int)) : Int :=
  (rows.filter (fun r => decide (dtLE b r.1) && decide (dtLT r.1 (i.next b)))).foldl
    (fun acc r => acc + r.2) 0

/-- Modelled from the spec (§4.4 step 5, `CumulativeSum`): one output value per
bucket, each the sum of the values observed in that bucket and all earlier
buckets.  This is the intended `accumulate()` for a run with no category
dimensions and a single quantity carrying the `CumulativeSum` policy. -/
def cumulativeOutputs (i : Interval) (cal : CalendarS) (temporal : List DT)
    (qty : List Int) : List Int :=
  let starts := bucketStarts i cal.start cal.endD
  let sums := starts.map (fun b => cellSum i b (temporal.zip qty))
  (List.range sums.length).map (fun k => (sums.take (k + 1)).sum)

/-- The units whose `Interval.next` branch is a fixed-duration `timedelta`
addition (everything except the calendar-aware Months and Years branches). -/
def isFixedUnit : TUnit → Bool
  | .Milliseconds | .Seconds | .Minutes | .Hours | .Days | .Weeks => true
  | .Months | .Years => false

/-- `UniformDepth n t`: `t` is a nested dict all of whose leaves (empty dicts)
sit at depth exactly `n`, with every level nonempty. -/
def UniformDepth : Nat → PyVal → Prop
  | 0, .dict es => es = []
  | n + 1, .dict es => es ≠ [] ∧ ∀ e ∈ es, UniformDepth n e.2
  | _, .vals _ => False
  | _, .nats _ => False

/-- `LeafFree t`: the nested dict `t` contains no list payload anywhere — in
particular no list of row positions. -/
def LeafFree : PyVal → Prop
  | .dict es => ∀ e ∈ es, LeafFree e.2
  | .vals _ => False
  | .nats _ => False
termination_by t => sizeOf t
decreasing_by
  simp_wf
  have h1 := List.sizeOf_lt_of_mem (by assumption)
  obtain ⟨k, v⟩ := e
  simp at h1 ⊢
  omega

/-- The keys of the top level of a nested dict, in storage order. -/
def rootKeys : PyVal → List String
  | .dict es => es.map (fun e => e.1)
  | _ => []

/-- First-seen deduplication of a list of keys: the insertion order of a Python
dict filled from the list. -/
def firstSeen (ks : List String) : List String :=
  ks.foldl (fun acc k => if k ∈ acc then acc else acc ++ [k]) []

/-! ### Helper lemmas: month lengths and the datetime order -/

/-- Weak lexicographic order on the date part only. -/
def dLEd (a b : DT) : Prop := dLT a b ∨ dEQ a b

theorem getD_pred {α : Type} (p : α → Prop) :
    ∀ (L : List α) (k : Nat) (dflt : α),
      (∀ x ∈ L, p x) → p dflt → p (L.getD k dflt)
  | [], k, dflt, _, hd => by simpa [List.getD] using hd
  | x :: L, 0, dflt, h, _ => by simpa using h x (by simp)
  | x :: L, k + 1, dflt, h, hd => by
    simpa [List.getD] using getD_pred p L k dflt (fun y hy => h y (by simp [hy])) hd

theorem daysInMonth_bounds (y m : Nat) :
    1 ≤ daysInMonth y m ∧ daysInMonth y m ≤ 31 := by
  unfold daysInMonth
  refine getD_pred (fun x => 1 ≤ x ∧ x ≤ 31) _ _ _ ?_ (by omega)
  intro x hx
  simp [monthLengths] at hx
  rcases hx with h | h | h | h
  all_goals first
    | omega
    | ((rcases h with rfl | rfl) <;> omega)
    | (subst h; split <;> omega)

theorem daysInMonth_12 (y : Nat) : daysInMonth y 12 = 31 := rfl

theorem daysInMonth_1 (y : Nat) : daysInMonth y 1 = 31 := rfl

theorem succDay_usec (d : DT) : (succDay d).usec = d.usec := by
  obtain ⟨y, m, dd, u⟩ := d
  simp only [succDay]
  split_ifs <;> rfl

theorem succDay_dEQ {d1 d2 : DT} (h : dEQ d1 d2) : dEQ (succDay d1) (succDay d2) := by
  obtain ⟨y1, m1, dd1, u1⟩ := d1
  obtain ⟨y2, m2, dd2, u2⟩ := d2
  obtain ⟨hy, hm, hd⟩ := h
  simp only at hy hm hd
  subst hy; subst hm; subst hd
  simp only [succDay, dEQ]
  split_ifs <;> simp

theorem valid_succDay {d : DT} (h : ValidDT d) : ValidDT (succDay d) := by
  obtain ⟨y, m, dd, u⟩ := d
  simp only [ValidDT] at h
  obtain ⟨h1, h2, h3, h4, h5, h6⟩ := h
  have hb1 := daysInMonth_bounds y (m + 1)
  have hb2 := daysInMonth_1 (y + 1)
  simp only [succDay]
  split_ifs with hc1 hc2 <;> simp only [ValidDT, daysInMonth_12] <;> omega

theorem dLT_succDay (d : DT) : dLT d (succDay d) := by
  obtain ⟨y, m, dd, u⟩ := d
  simp only [succDay]
  split_ifs <;> simp [dLT]

theorem succDay_le_of_dLT {d1 d2 : DT} (h1 : ValidDT d1) (h2 : ValidDT d2)
    (h : dLT d1 d2) : dLEd (succDay d1) d2 := by
  obtain ⟨y1, m1, dd1, u1⟩ := d1
  obtain ⟨y2, m2, dd2, u2⟩ := d2
  simp only [ValidDT] at h1 h2
  obtain ⟨-, hm1, hm1', -, hd1, -⟩ := h1
  obtain ⟨-, hm2, hm2', hd2, hd2', -⟩ := h2
  simp only [dLT] at h
  simp only [succDay]
  split_ifs with hc1 hc2 <;>
    simp only [dLEd, dLT, dEQ] <;>
    (rcases h with h | ⟨rfl, h | ⟨rfl, h⟩⟩) <;> omega

theorem dLT_trans {a b c : DT} (h1 : dLT a b) (h2 : dLT b c) : dLT a c := by
  obtain ⟨y1, m1, d1, u1⟩ := a; obtain ⟨y2, m2, d2, u2⟩ := b; obtain ⟨y3, m3, d3, u3⟩ := c
  simp only [dLT] at *
  omega

theorem dLT_of_dLEd_of_dLT {a b c : DT} (h1 : dLEd a b) (h2 : dLT b c) : dLT a c := by
  obtain ⟨y1, m1, d1, u1⟩ := a; obtain ⟨y2, m2, d2, u2⟩ := b; obtain ⟨y3, m3, d3, u3⟩ := c
  simp only [dLEd, dLT, dEQ] at *
  omega

theorem succDay_strictMono {d1 d2 : DT} (h1 : ValidDT d1) (h2 : ValidDT d2)
    (h : dLT d1 d2) : dLT (succDay d1) (succDay d2) :=
  dLT_of_dLEd_of_dLT (succDay_le_of_dLT h1 h2 h) (dLT_succDay d2)

theorem addDays_usec (d : DT) (n : Nat) : (addDays d n).usec = d.usec := by
  induction n with
  | zero => rfl
  | succ n ih => rw [addDays, succDay_usec, ih]

theorem addDays_dEQ {d1 d2 : DT} (n : Nat) (h : dEQ d1 d2) :
    dEQ (addDays d1 n) (addDays d2 n) := by
  induction n with
  | zero => exact h
  | succ n ih => exact succDay_dEQ ih

theorem valid_addDays {d : DT} (n : Nat) (h : ValidDT d) : ValidDT (addDays d n) := by
  induction n with
  | zero => exact h
  | succ n ih => exact valid_succDay ih

theorem addDays_strictMono {d1 d2 : DT} (n : Nat) (h1 : ValidDT d1) (h2 : ValidDT d2)
    (h : dLT d1 d2) : dLT (addDays d1 n) (addDays d2 n) := by
  induction n with
  | zero => exact h
  | succ n ih => exact succDay_strictMono (valid_addDays n h1) (valid_addDays n h2) ih

theorem addDays_mono_dLEd {d1 d2 : DT} (n : Nat) (h1 : ValidDT d1) (h2 : ValidDT d2)
    (h : dLEd d1 d2) : dLEd (addDays d1 n) (addDays d2 n) := by
  rcases h with h | h
  · exact Or.inl (addDays_strictMono n h1 h2 h)
  · exact Or.inr (addDays_dEQ n h)

theorem addDays_lt_right {d : DT} {n1 n2 : Nat} (h : n1 < n2) :
    dLT (addDays d n1) (addDays d n2) := by
  induction n2 with
  | zero => omega
  | succ n2 ih =>
    rcases Nat.lt_succ_iff_lt_or_eq.mp h with h' | h'
    · exact dLT_trans (ih h') (dLT_succDay (addDays d n2))
    · subst h'; exact dLT_succDay (addDays d n1)

theorem addDays_succ_left (d : DT) (n : Nat) :
    addDays (succDay d) n = succDay (addDays d n) := by
  induction n with
  | zero => rfl
  | succ n ih => rw [addDays, ih, addDays]

theorem dLT_of_dLT_of_dEQ {a b c : DT} (h1 : dLT a b) (h2 : dEQ b c) : dLT a c := by
  obtain ⟨y1, m1, d1, u1⟩ := a; obtain ⟨y2, m2, d2, u2⟩ := b; obtain ⟨y3, m3, d3, u3⟩ := c
  simp only [dLT, dEQ] at *
  omega

theorem dLT_of_dLT_of_dLEd {a b c : DT} (h1 : dLT a b) (h2 : dLEd b c) : dLT a c := by
  obtain ⟨y1, m1, d1, u1⟩ := a; obtain ⟨y2, m2, d2, u2⟩ := b; obtain ⟨y3, m3, d3, u3⟩ := c
  simp only [dLT, dLEd, dEQ] at *
  omega

/-- Strict monotonicity of fixed-duration `timedelta` addition in the datetime
argument: the key lemma behind the fixed-duration branches of
`Interval.next`. -/
theorem addUsec_strictMono (delta : Nat) {d1 d2 : DT} (h1 : ValidDT d1)
    (h2 : ValidDT d2) (h : dtLT d1 d2) :
    dtLT (addUsec d1 delta) (addUsec d2 delta) := by
  obtain ⟨y1, m1, dd1, u1⟩ := d1
  obtain ⟨y2, m2, dd2, u2⟩ := d2
  simp only [ValidDT] at h1 h2
  simp only [dtLT, dLT, dEQ] at h
  show dtLT
    (addDays ⟨y1, m1, dd1, (u1 + delta) % usecPerDay⟩ ((u1 + delta) / usecPerDay))
    (addDays ⟨y2, m2, dd2, (u2 + delta) % usecPerDay⟩ ((u2 + delta) / usecPerDay))
  have hv1 : ValidDT ⟨y1, m1, dd1, (u1 + delta) % usecPerDay⟩ := by
    simp only [ValidDT, usecPerDay] at h1 ⊢; omega
  have hv2 : ValidDT ⟨y2, m2, dd2, (u2 + delta) % usecPerDay⟩ := by
    simp only [ValidDT, usecPerDay] at h2 ⊢; omega
  rcases h with hdate | ⟨⟨hy, hm, hd⟩, hu⟩
  · -- strict inequality already in the date part
    have hdateP : dLT ⟨y1, m1, dd1, (u1 + delta) % usecPerDay⟩
        ⟨y2, m2, dd2, (u2 + delta) % usecPerDay⟩ := by
      simp only [dLT]; exact hdate
    have hcarry : (u1 + delta) / usecPerDay ≤ (u2 + delta) / usecPerDay + 1 := by
      simp only [usecPerDay] at h1 ⊢; omega
    rcases Nat.lt_or_ge ((u2 + delta) / usecPerDay) ((u1 + delta) / usecPerDay)
      with hcc | hcc
    · -- one extra day carried on the left: c1 = c2 + 1
      have hceq : (u1 + delta) / usecPerDay = (u2 + delta) / usecPerDay + 1 := by
        omega
      have hrlt : (u1 + delta) % usecPerDay < (u2 + delta) % usecPerDay := by
        simp only [usecPerDay] at h1 h2 hceq ⊢; omega
      have hstep : dLEd
          (addDays (succDay ⟨y1, m1, dd1, (u1 + delta) % usecPerDay⟩)
            ((u2 + delta) / usecPerDay))
          (addDays ⟨y2, m2, dd2, (u2 + delta) % usecPerDay⟩
            ((u2 + delta) / usecPerDay)) :=
        addDays_mono_dLEd _ (valid_succDay hv1) hv2 (succDay_le_of_dLT hv1 hv2 hdateP)
      rw [addDays_succ_left] at hstep
      rw [hceq]
      rcases hstep with hstep | hstep
      · exact Or.inl hstep
      · refine Or.inr ⟨hstep, ?_⟩
        rw [addDays, succDay_usec, addDays_usec, addDays_usec]
        exact hrlt
    · -- no extra carry on the left: the date part stays strictly smaller
      refine Or.inl ?_
      have hlt : dLT
          (addDays ⟨y1, m1, dd1, (u1 + delta) % usecPerDay⟩ ((u1 + delta) / usecPerDay))
          (addDays ⟨y2, m2, dd2, (u2 + delta) % usecPerDay⟩ ((u1 + delta) / usecPerDay)) :=
        addDays_strictMono _ hv1 hv2 hdateP
      rcases Nat.lt_or_ge ((u1 + delta) / usecPerDay) ((u2 + delta) / usecPerDay)
        with hlt2 | hle2
      · exact dLT_trans hlt (addDays_lt_right hlt2)
      · have hceq : (u1 + delta) / usecPerDay = (u2 + delta) / usecPerDay := by omega
        rw [hceq] at hlt ⊢
        exact hlt
  · -- equal date parts, strictly smaller time of day
    subst hy; subst hm; subst hd
    have hdq : dEQ ⟨y1, m1, dd1, (u1 + delta) % usecPerDay⟩
        ⟨y1, m1, dd1, (u2 + delta) % usecPerDay⟩ := by
      simp [dEQ]
    have hc : (u1 + delta) / usecPerDay ≤ (u2 + delta) / usecPerDay := by
      simp only [usecPerDay]; omega
    rcases Nat.lt_or_ge ((u1 + delta) / usecPerDay) ((u2 + delta) / usecPerDay)
      with hlt2 | hle2
    · refine Or.inl ?_
      exact dLT_of_dLT_of_dEQ (addDays_lt_right hlt2) (addDays_dEQ _ hdq)
    · have hceq : (u1 + delta) / usecPerDay = (u2 + delta) / usecPerDay := by omega
      have hrlt : (u1 + delta) % usecPerDay < (u2 + delta) % usecPerDay := by
        simp only [usecPerDay] at hceq ⊢; omega
      refine Or.inr ⟨?_, ?_⟩
      · rw [hceq]; exact addDays_dEQ _ hdq
      · rw [addDays_usec, addDays_usec]
        exact hrlt

theorem addUsec_day {d : DT} (h : ValidDT d) : addUsec d usecPerDay = succDay d := by
  obtain ⟨y, m, dd, u⟩ := d
  have hu : u < usecPerDay := h.2.2.2.2.2
  show addDays ⟨y, m, dd, (u + usecPerDay) % usecPerDay⟩ ((u + usecPerDay) / usecPerDay)
    = succDay ⟨y, m, dd, u⟩
  have e1 : (u + usecPerDay) % usecPerDay = u := by
    simp only [usecPerDay] at hu ⊢; omega
  have e2 : (u + usecPerDay) / usecPerDay = 1 := by
    simp only [usecPerDay] at hu ⊢; omega
  rw [e1, e2]
  rfl

theorem mu_succDay {d : DT} (h : ValidDT d) : mu d < mu (succDay d) := by
  obtain ⟨y, m, dd, u⟩ := d
  simp only [ValidDT] at h
  have hb := daysInMonth_bounds y m
  simp only [succDay, mu]
  split_ifs <;> simp only <;> omega

theorem mu_mono_dtLE {a b : DT} (ha : ValidDT a) (h : dtLE a b) : mu a ≤ mu b := by
  obtain ⟨y1, m1, dd1, u1⟩ := a
  obtain ⟨y2, m2, dd2, u2⟩ := b
  simp only [ValidDT] at ha
  have hb := daysInMonth_bounds y1 m1
  simp only [dtLE, dtLT, dLT, dEQ, DT.mk.injEq, mu] at h ⊢
  omega

theorem not_dtLE_of_dtLT {a b : DT} (h : dtLT a b) : ¬ dtLE b a := by
  obtain ⟨y1, m1, dd1, u1⟩ := a
  obtain ⟨y2, m2, dd2, u2⟩ := b
  simp only [dtLT, dtLE, dLT, dEQ, DT.mk.injEq] at h ⊢
  omega

/-- The iteration bound of `generate_dates` is immaterial: any two sufficient
bounds produce the same list, so the fueled loop computes the source's
unbounded `while` loop on valid datetimes. -/
theorem genDatesFuel_stable :
    ∀ (f g : Nat) (cur e : DT), ValidDT cur →
      mu e + 1 - mu cur ≤ f → mu e + 1 - mu cur ≤ g →
      genDatesFuel f cur e = genDatesFuel g cur e := by
  intro f
  induction f with
  | zero =>
    intro g cur e hv hf hg
    have hguard : ¬ dtLE cur e := by
      intro hle
      have := mu_mono_dtLE hv hle
      omega
    cases g with
    | zero => rfl
    | succ g => simp [genDatesFuel, hguard]
  | succ f ih =>
    intro g cur e hv hf hg
    cases g with
    | zero =>
      have hguard : ¬ dtLE cur e := by
        intro hle
        have := mu_mono_dtLE hv hle
        omega
      simp [genDatesFuel, hguard]
    | succ g =>
      by_cases hle : dtLE cur e
      · have hmu : mu cur < mu (addUsec cur usecPerDay) := by
          rw [addUsec_day hv]; exact mu_succDay hv
        have hv' : ValidDT (addUsec cur usecPerDay) := by
          rw [addUsec_day hv]; exact valid_succDay hv
        simp only [genDatesFuel, if_pos hle]
        rw [ih g _ e hv' (by omega) (by omega)]
      · simp [genDatesFuel, hle]

/-! ### Claim theorems -/

/-- C6: for every pair of instants with `end < start`, `Calendar`'s date
generation terminates and yields the empty sequence — the `while` guard fails
at once, for any iteration bound, so there is neither an exception nor a
diverging loop. -/
theorem spec_C6 (start e : DT) (h : dtLT e start) :
    (Calendar.ofDates start e).series = [] ∧ ∀ fuel, genDatesFuel fuel start e = [] := by
  have hguard : ¬ dtLE start e := not_dtLE_of_dtLT h
  have hall : ∀ fuel, genDatesFuel fuel start e = [] := by
    intro fuel
    cases fuel with
    | zero => rfl
    | succ fuel => simp [genDatesFuel, hguard]
  exact ⟨hall _, hall⟩

/-- Witness for C6 at a concrete degenerate range (Jan 2 down to Jan 1). -/
theorem spec_C6_witness :
    (Calendar.ofDates ⟨2025, 1, 2, 0⟩ ⟨2025, 1, 1, 0⟩).series = [] :=
  (spec_C6 ⟨2025, 1, 2, 0⟩ ⟨2025, 1, 1, 0⟩ (by decide)).1

/-- C4 fails as stated: with the Months unit and scalar 1 the day-of-month
clamp sends both Jan 28, 2025 and Jan 31, 2025 to Feb 28, 2025, so a strictly
smaller date does not yield a strictly smaller successor. -/
theorem spec_C4_counterexample :
    ValidDT ⟨2025, 1, 28, 0⟩ ∧ ValidDT ⟨2025, 1, 31, 0⟩ ∧
    dtLT ⟨2025, 1, 28, 0⟩ ⟨2025, 1, 31, 0⟩ ∧
    ¬ dtLT (Interval.next ⟨.Months, 1⟩ ⟨2025, 1, 28, 0⟩)
        (Interval.next ⟨.Months, 1⟩ ⟨2025, 1, 31, 0⟩) := by
  decide

/-- C4 amended: `Interval.next` is strictly monotonic increasing in its date
argument for every fixed-duration unit (Milliseconds through Weeks) and every
scalar; for Months and Years the day clamping breaks strictness. -/
theorem spec_C4_amended (u : TUnit) (hu : isFixedUnit u = true) (s : Nat)
    (d1 d2 : DT) (h1 : ValidDT d1) (h2 : ValidDT d2) (h : dtLT d1 d2) :
    dtLT (Interval.next ⟨u, s⟩ d1) (Interval.next ⟨u, s⟩ d2) := by
  cases u <;>
    first
      | exact addUsec_strictMono _ h1 h2 h
      | simp [isFixedUnit] at hu

/-- Witness for the amended C4: one day plus one week, applied to two ordered
concrete datetimes. -/
theorem spec_C4_amended_witness :
    dtLT (Interval.next ⟨.Weeks, 1⟩ ⟨2025, 2, 25, 3600000000⟩)
      (Interval.next ⟨.Weeks, 1⟩ ⟨2025, 2, 26, 0⟩) :=
  spec_C4_amended .Weeks rfl 1 _ _ (by decide) (by decide) (by decide)

/-- C10: the `aggregation` constructor argument of `DataSeries` is accepted
but never stored — two constructions differing only in the aggregation are
identical, and the resulting object carries exactly the series and the
affinity. -/
theorem spec_C10 {α : Type} (series : List α) (affinity : Affinity)
    (a1 a2 : Aggregation) :
    DataSeries.init series affinity a1 = DataSeries.init series affinity a2 ∧
    (DataSeries.init series affinity a1).series = series ∧
    (DataSeries.init series affinity a1).affinity = affinity :=
  ⟨rfl, rfl, rfl⟩

/-- C5: the Months branch of `Interval.next` clamps the day-of-month to the
last valid day of the target month, month lengths follow the Gregorian
leap-year rule (divisible by 4 and not by 100, unless divisible by 400),
Jan 31 + 1 month is Feb 28 or Feb 29 according to the target year's leap
status, and Feb 29 plus years landing in a non-leap year is Feb 28. -/
theorem spec_C5 :
    (∀ (s : Nat) (d : DT),
       (Interval.next ⟨.Months, s⟩ d).day =
         min d.day (daysInMonth (Interval.next ⟨.Months, s⟩ d).year
           (Interval.next ⟨.Months, s⟩ d).month)) ∧
    (∀ y : Nat,
       (isLeap y = true ↔ ((y % 4 = 0 ∧ ¬ y % 100 = 0) ∨ y % 400 = 0)) ∧
       daysInMonth y 2 = if isLeap y then 29 else 28) ∧
    (∀ y u : Nat,
       Interval.next ⟨.Months, 1⟩ ⟨y, 1, 31, u⟩ =
         ⟨y, 2, if isLeap y then 29 else 28, u⟩) ∧
    (∀ y s u : Nat, isLeap (y + s) = false →
       Interval.next ⟨.Years, s⟩ ⟨y, 2, 29, u⟩ = ⟨y + s, 2, 28, u⟩) := by
  refine ⟨fun s d => rfl, fun y => ⟨?_, rfl⟩, fun y u => ?_, fun y s u h => ?_⟩
  · simp only [isLeap, Bool.or_eq_true, Bool.and_eq_true, Bool.not_eq_true',
      beq_iff_eq, beq_eq_false_iff_ne, ne_eq]
  · show (⟨y + 1 / 12, 1 % 12 + 1, min 31 (daysInMonth (y + 1 / 12) (1 % 12 + 1)), u⟩ : DT)
      = ⟨y, 2, if isLeap y then 29 else 28, u⟩
    have h2 : daysInMonth y 2 = if isLeap y then 29 else 28 := rfl
    norm_num [h2]
    split <;> omega
  · show (if (2 : Nat) = 2 ∧ (29 : Nat) = 29 ∧ isLeap (y + s) = false then
        (⟨y + s, 2, 28, u⟩ : DT) else ⟨y + s, 2, 29, u⟩) = ⟨y + s, 2, 28, u⟩
    rw [if_pos ⟨rfl, rfl, h⟩]

/-- Witness for C5: Feb 29, 2024 plus one year lands on Feb 28, 2025 (2025 is
not a leap year). -/
theorem spec_C5_witness :
    Interval.next ⟨.Years, 1⟩ ⟨2024, 2, 29, 0⟩ = ⟨2025, 2, 28, 0⟩ :=
  spec_C5.2.2.2 2024 1 0 (by decide)

/-- C1 (code bug): the source's `accumulate()` cannot run at all — it is
syntactically incomplete — so the claimed output can only be checked against
the spec's definition of the reduction (§4.4).  On the claimed configuration
(three consecutive daily rows, quantity `[1,2,3]`, daily buckets, no
categories, `CumulativeSum`) the spec-modelled reduction over the
accumulator's default calendar produces `[1, 3, 6]`. -/
theorem spec_C1 :
    cumulativeOutputs ⟨.Days, 1⟩
      (TemporalAccumulator.init [⟨2025, 1, 1, 0⟩, ⟨2025, 1, 2, 0⟩, ⟨2025, 1, 3, 0⟩]
        [] [[1, 2, 3]] [] none ⟨.Days, 1⟩).calendar
      [⟨2025, 1, 1, 0⟩, ⟨2025, 1, 2, 0⟩, ⟨2025, 1, 3, 0⟩] [1, 2, 3] = [1, 3, 6] := by
  decide

/-- C7 (code bug): `TemporalAccumulator.__init__` performs no length
validation whatsoever — constructing with a temporal dimension of length 2 and
a quantity series of length 3 stores both unchanged and signals nothing. -/
theorem spec_C7 :
    (TemporalAccumulator.init [⟨2025, 1, 1, 0⟩, ⟨2025, 1, 2, 0⟩]
        [] [[1, 2, 3]] [] none ⟨.Days, 1⟩).quantities = [[1, 2, 3]] ∧
    (TemporalAccumulator.init [⟨2025, 1, 1, 0⟩, ⟨2025, 1, 2, 0⟩]
        [] [[1, 2, 3]] [] none ⟨.Days, 1⟩).temporal_dimension.length = 2 := by
  exact ⟨rfl, rfl⟩

theorem dtLT_irrefl (a : DT) : ¬ dtLT a a := by
  obtain ⟨y, m, dd, u⟩ := a
  simp only [dtLT, dLT, dEQ]
  omega

theorem foldl_pyMin_of_le :
    ∀ (xs : List DT) (x : DT), (∀ b ∈ xs, dtLE x b) →
      xs.foldl (fun acc b => if dtLT b acc then b else acc) x = x := by
  intro xs
  induction xs with
  | nil => intro x _; rfl
  | cons b xs ih =>
    intro x h
    have hb : ¬ dtLT b x := fun hlt => not_dtLE_of_dtLT hlt (h b (by simp))
    simp only [List.foldl_cons, if_neg hb]
    exact ih x (fun c hc => h c (by simp [hc]))

theorem foldl_pyMax_sorted :
    ∀ (xs : List DT) (x : DT), (∀ b ∈ xs, dtLE x b) → List.Sorted dtLE xs →
      xs.foldl (fun acc b => if dtLT acc b then b else acc) x = (x :: xs).getLastI := by
  intro xs
  induction xs with
  | nil => intro x _ _; rfl
  | cons b xs ih =>
    intro x h hs
    have hxb : dtLE x b := h b (by simp)
    have hstep : (if dtLT x b then b else x) = b := by
      rcases hxb with hlt | heq
      · rw [if_pos hlt]
      · subst heq
        rw [if_neg (dtLT_irrefl x)]
    rw [List.getLastI_eq_getLast?, List.getLast?_cons_cons,
      ← List.getLastI_eq_getLast?]
    simp only [List.foldl_cons, hstep]
    rw [List.sorted_cons] at hs
    exact ih b hs.1 hs.2

/-- C2 fails as stated: with the unsorted temporal series
`[Jan 2 2025, Jan 1 2025]` the default calendar is built from the first and
last elements (`start = Jan 2 > end = Jan 1`, empty series), not from the
min/max span the spec describes. -/
theorem spec_C2_counterexample :
    (TemporalAccumulator.init [⟨2025, 1, 2, 0⟩, ⟨2025, 1, 1, 0⟩]
        [] [] [] none ⟨.Days, 1⟩).calendar
      ≠ specMinMaxCalendar [⟨2025, 1, 2, 0⟩, ⟨2025, 1, 1, 0⟩] := by
  decide

/-- C2 amended: a `TemporalAccumulator` constructed without an explicit
calendar and with a non-empty temporal dimension uses the calendar built from
the temporal dimension's FIRST and LAST elements; when the temporal dimension
is sorted ascending, these coincide with its min/max, recovering the spec's
description. -/
theorem spec_C2_amended (ts : List DT) (hne : ts ≠ []) :
    (TemporalAccumulator.init ts [] [] [] none ⟨.Days, 1⟩).calendar
        = Calendar.ofDates ts.headI ts.getLastI ∧
    (List.Sorted dtLE ts →
      (TemporalAccumulator.init ts [] [] [] none ⟨.Days, 1⟩).calendar
        = specMinMaxCalendar ts) := by
  refine ⟨rfl, fun hs => ?_⟩
  cases ts with
  | nil => exact absurd rfl hne
  | cons x xs =>
    rw [List.sorted_cons] at hs
    have hmin : specMinD (x :: xs) = x := foldl_pyMin_of_le xs x hs.1
    have hmax : specMaxD (x :: xs) = (x :: xs).getLastI := foldl_pyMax_sorted xs x hs.1 hs.2
    show Calendar.ofDates (x :: xs).headI (x :: xs).getLastI = specMinMaxCalendar (x :: xs)
    unfold specMinMaxCalendar
    rw [hmin, hmax]
    rfl

/-- Witness for the amended C2 on a sorted two-element temporal series. -/
theorem spec_C2_amended_witness :
    (TemporalAccumulator.init [⟨2025, 1, 1, 0⟩, ⟨2025, 1, 2, 0⟩]
        [] [] [] none ⟨.Days, 1⟩).calendar
      = specMinMaxCalendar [⟨2025, 1, 1, 0⟩, ⟨2025, 1, 2, 0⟩] :=
  (spec_C2_amended [⟨2025, 1, 1, 0⟩, ⟨2025, 1, 2, 0⟩] (by decide)).2 (by decide)

/-- C8 fails as stated: `"2025-13-01"` is in `YYYY-MM-DD` form (it matches the
source's regex) yet `fromstr` does not succeed on it — `fromisoformat`
rejects month 13. -/
theorem spec_C8_counterexample :
    matchDate "2025-13-01" = true ∧ fromstr "2025-13-01" = .error .invalidDate :=
  ⟨rfl, rfl⟩

theorem toList_append (s t : String) : (s ++ t).toList = s.toList ++ t.toList := by
  simp [String.toList]

/-- C8 amended (stated for ASCII strings, on which the `\\d`-as-ASCII-digit
model of the source regexes is exact; Python's `\\d` also accepts non-ASCII
Unicode digits, which are not modelled — the `AsciiOnly` hypothesis only
scopes the claim and does no work in the proof): a string matching neither
regex fails with the invalid-format `ValueError`; a regex-matching string
succeeds exactly when it is in strict `YYYY-MM-DD` (resp.
`YYYY-MM-DDTHH:MM:SS`) shape with all components in range for
`datetime.fromisoformat`; and whenever a regex matches — including the
out-of-range and trailing-newline cases — any failure is `fromisoformat`'s
own error, never the invalid-format one. -/
theorem spec_C8_amended (s : String) (hascii : AsciiOnly s) :
    (matchDate s = false → matchDateTime s = false →
      fromstr s = .error .invalidFormat) ∧
    (matchDate s = true →
      (((∃ d, fromstr s = .ok d) ↔
          (dateShape s.toList = true ∧
            isoInRange (parseDate s).1 (parseDate s).2.1 (parseDate s).2.2 0 0 0)) ∧
        ((∃ d, fromstr s = .ok d) ∨ fromstr s = .error .invalidDate))) ∧
    (matchDate s = false → matchDateTime s = true →
      (((∃ d, fromstr s = .ok d) ↔
          (dateTimeShape s.toList = true ∧
            isoInRange (parseDateTime s).1 (parseDateTime s).2.1
              (parseDateTime s).2.2.1 (parseDateTime s).2.2.2.1
              (parseDateTime s).2.2.2.2.1 (parseDateTime s).2.2.2.2.2)) ∧
        ((∃ d, fromstr s = .ok d) ∨ fromstr s = .error .invalidDate))) := by
  have htl : (s ++ "T00:00:00").toList =
      s.toList ++ ['T', '0', '0', ':', '0', '0', ':', '0', '0'] := by
    rw [toList_append]; rfl
  refine ⟨fun h1 h2 => ?_, fun h1 => ?_, fun h1 h2 => ?_⟩
  · simp [fromstr, h1, h2]
  · have hfr : fromstr s = pyFromisoformat (s ++ "T00:00:00") := by
      simp [fromstr, h1]
    rw [hfr]
    by_cases hstrict : dateShape s.toList = true
    · -- strict shape: the appended string is in strict 19-character shape
      have hex := hstrict
      simp only [dateShape, Bool.and_eq_true, beq_iff_eq, List.all_cons,
        List.all_nil, Bool.and_true] at hex
      obtain ⟨⟨⟨hlen, hd4⟩, hd7⟩, hdig⟩ := hex
      have hL : ∀ (i : Nat) (c : Char), i < 10 →
          (s.toList ++ ['T', '0', '0', ':', '0', '0', ':', '0', '0']).getD i c
            = s.toList.getD i c := by
        intro i c hi
        exact List.getD_append _ _ _ _ (by omega)
      have hR : ∀ (i : Nat) (c : Char), 10 ≤ i →
          (s.toList ++ ['T', '0', '0', ':', '0', '0', ':', '0', '0']).getD i c
            = (['T', '0', '0', ':', '0', '0', ':', '0', '0'] : List Char).getD (i - 10) c := by
        intro i c hi
        rw [List.getD_append_right _ _ _ _ (by omega), hlen]
      have hshape : dateTimeShape
          (s.toList ++ ['T', '0', '0', ':', '0', '0', ':', '0', '0']) = true := by
        simp only [dateTimeShape, Bool.and_eq_true, beq_iff_eq, List.all_cons,
          List.all_nil, Bool.and_true, List.length_append, hlen,
          hL 0 ' ' (by omega), hL 1 ' ' (by omega), hL 2 ' ' (by omega),
          hL 3 ' ' (by omega), hL 4 ' ' (by omega), hL 5 ' ' (by omega),
          hL 6 ' ' (by omega), hL 7 ' ' (by omega), hL 8 ' ' (by omega),
          hL 9 ' ' (by omega), hR 10 ' ' (by omega), hR 11 ' ' (by omega),
          hR 12 ' ' (by omega), hR 13 ' ' (by omega), hR 14 ' ' (by omega),
          hR 15 ' ' (by omega), hR 16 ' ' (by omega), hR 17 ' ' (by omega),
          hR 18 ' ' (by omega)]
        refine ⟨⟨⟨⟨⟨⟨rfl, hd4⟩, hd7⟩, rfl⟩, rfl⟩, rfl⟩, ?_⟩
        simp only [List.getD]
        exact ⟨hdig.1, hdig.2.1, hdig.2.2.1, hdig.2.2.2.1, hdig.2.2.2.2.1,
          hdig.2.2.2.2.2.1, hdig.2.2.2.2.2.2.1, hdig.2.2.2.2.2.2.2,
          rfl, rfl, rfl, rfl, rfl, rfl⟩
      have hn4 : num4 (s.toList ++ ['T', '0', '0', ':', '0', '0', ':', '0', '0']) 0
          = num4 s.toList 0 := by
        simp only [num4, hL 0 '0' (by omega), hL 1 '0' (by omega),
          hL 2 '0' (by omega), hL 3 '0' (by omega)]
      have hn5 : num2 (s.toList ++ ['T', '0', '0', ':', '0', '0', ':', '0', '0']) 5
          = num2 s.toList 5 := by
        simp only [num2, hL 5 '0' (by omega), hL 6 '0' (by omega)]
      have hn8 : num2 (s.toList ++ ['T', '0', '0', ':', '0', '0', ':', '0', '0']) 8
          = num2 s.toList 8 := by
        simp only [num2, hL 8 '0' (by omega), hL 9 '0' (by omega)]
      have h11 : num2 (s.toList ++ ['T', '0', '0', ':', '0', '0', ':', '0', '0']) 11 = 0 := by
        simp only [num2, hR 11 '0' (by omega), hR 12 '0' (by omega)]
        rfl
      have h14 : num2 (s.toList ++ ['T', '0', '0', ':', '0', '0', ':', '0', '0']) 14 = 0 := by
        simp only [num2, hR 14 '0' (by omega), hR 15 '0' (by omega)]
        rfl
      have h17 : num2 (s.toList ++ ['T', '0', '0', ':', '0', '0', ':', '0', '0']) 17 = 0 := by
        simp only [num2, hR 17 '0' (by omega), hR 18 '0' (by omega)]
        rfl
      simp only [pyFromisoformat]
      rw [htl, if_pos hshape, hn4, hn5, hn8, h11, h14, h17]
      by_cases hio : isoInRange (num4 s.toList 0) (num2 s.toList 5) (num2 s.toList 8) 0 0 0
      · rw [if_pos hio]
        exact ⟨iff_of_true ⟨_, rfl⟩ ⟨hstrict, hio⟩, Or.inl ⟨_, rfl⟩⟩
      · rw [if_neg hio]
        refine ⟨iff_of_false ?_ ?_, Or.inr rfl⟩
        · rintro ⟨d, hd⟩
          exact Except.noConfusion hd
        · rintro ⟨-, hio'⟩
          exact hio hio'
    · -- the regex matched only thanks to a trailing newline
      have hm := h1
      unfold matchDate stripTrailingNewline at hm
      have hnl : s.toList.getLast? = some (Char.ofNat 10) := by
        by_contra hno
        rw [if_neg hno] at hm
        exact hstrict hm
      rw [if_pos hnl] at hm
      have hlen10 : s.toList.dropLast.length = 10 := by
        simp only [dateShape, Bool.and_eq_true, beq_iff_eq] at hm
        exact hm.1.1.1
      have hlen11 : s.toList.length = 11 := by
        have hdl := List.length_dropLast s.toList
        omega
      have hsf : ¬ (dateTimeShape
          (s.toList ++ ['T', '0', '0', ':', '0', '0', ':', '0', '0']) = true) := by
        intro hcontra
        simp only [dateTimeShape, Bool.and_eq_true, beq_iff_eq] at hcontra
        have hc := hcontra.1.1.1.1.1.1
        rw [List.length_append, hlen11] at hc
        simp at hc
      simp only [pyFromisoformat]
      rw [htl, if_neg hsf]
      refine ⟨iff_of_false ?_ ?_, Or.inr rfl⟩
      · rintro ⟨d, hd⟩
        exact Except.noConfusion hd
      · rintro ⟨hds, -⟩
        exact hstrict hds
  · have hfr : fromstr s = pyFromisoformat s := by
      simp [fromstr, h1, h2]
    rw [hfr]
    simp only [pyFromisoformat]
    by_cases hstrict : dateTimeShape s.toList = true
    · rw [if_pos hstrict]
      by_cases hio : isoInRange (num4 s.toList 0) (num2 s.toList 5) (num2 s.toList 8)
        (num2 s.toList 11) (num2 s.toList 14) (num2 s.toList 17)
      · rw [if_pos hio]
        exact ⟨iff_of_true ⟨_, rfl⟩ ⟨hstrict, hio⟩, Or.inl ⟨_, rfl⟩⟩
      · rw [if_neg hio]
        refine ⟨iff_of_false ?_ ?_, Or.inr rfl⟩
        · rintro ⟨d, hd⟩
          exact Except.noConfusion hd
        · rintro ⟨-, hio'⟩
          exact hio hio'
    · rw [if_neg hstrict]
      refine ⟨iff_of_false ?_ ?_, Or.inr rfl⟩
      · rintro ⟨d, hd⟩
        exact Except.noConfusion hd
      · rintro ⟨hds, -⟩
        exact hstrict hds

/-- Witness for the amended C8: a well-formed, in-range ASCII date string
parses successfully. -/
theorem spec_C8_amended_witness : ∃ d, fromstr "2025-01-02" = .ok d :=
  (((spec_C8_amended "2025-01-02" (by decide)).2.1 rfl).1).mpr (by decide)

theorem insertPath_cons_ne_nil (es : List (String × PyVal)) (k : String)
    (rest : List String) : insertPath es (k :: rest) ≠ [] := by
  simp only [insertPath]
  split
  · rename_i h
    intro hnil
    rw [List.map_eq_nil_iff] at hnil
    subst hnil
    simp at h
  · intro hnil
    rw [List.map_eq_nil_iff] at hnil
    simp at hnil

theorem uniformDepth_is_dict {n : Nat} {v : PyVal} (h : UniformDepth n v) :
    ∃ cs, v = .dict cs := by
  cases v with
  | dict cs => exact ⟨cs, rfl⟩
  | vals l => cases n <;> simp [UniformDepth] at h
  | nats l => cases n <;> simp [UniformDepth] at h

theorem uniformDepth_insertPath :
    ∀ (rest : List String) (k : String) (es : List (String × PyVal)),
      (∀ e ∈ es, UniformDepth rest.length e.2) →
      ∀ e ∈ insertPath es (k :: rest), UniformDepth rest.length e.2 := by
  intro rest
  induction rest with
  | nil =>
    intro k es h e he
    simp only [insertPath] at he
    rcases List.mem_map.mp he with ⟨a, ha, rfl⟩
    have hmem : a ∈ es ∨ a = (k, PyVal.dict []) := by
      revert ha; split
      · exact fun ha => Or.inl ha
      · intro ha
        rcases List.mem_append.mp ha with ha | ha
        · exact Or.inl ha
        · simp at ha; exact Or.inr ha
    by_cases hk : a.1 = k
    · simp only [if_pos hk]
      rcases hmem with hmem | rfl
      · have hd := h a hmem
        rcases uniformDepth_is_dict hd with ⟨cs, hcs⟩
        rw [hcs] at hd ⊢
        simp only [UniformDepth, List.length_nil] at hd
        subst hd
        simp [insertPath, UniformDepth]
      · simp [insertPath, UniformDepth]
    · simp only [if_neg hk]
      rcases hmem with hmem | rfl
      · exact h a hmem
      · simp at hk
  | cons b rest' ih =>
    intro k es h e he
    simp only [insertPath] at he
    rcases List.mem_map.mp he with ⟨a, ha, rfl⟩
    have hmem : a ∈ es ∨ a = (k, PyVal.dict []) := by
      revert ha; split
      · exact fun ha => Or.inl ha
      · intro ha
        rcases List.mem_append.mp ha with ha | ha
        · exact Or.inl ha
        · simp at ha; exact Or.inr ha
    by_cases hk : a.1 = k
    · simp only [if_pos hk]
      rcases hmem with hmem | rfl
      · have hd := h a hmem
        rcases uniformDepth_is_dict hd with ⟨cs, hcs⟩
        rw [hcs] at hd ⊢
        simp only [List.length_cons, UniformDepth] at hd ⊢
        exact ⟨insertPath_cons_ne_nil cs b rest', ih b cs hd.2⟩
      · simp only [List.length_cons, UniformDepth]
        exact ⟨insertPath_cons_ne_nil [] b rest', ih b [] (by simp)⟩
    · simp only [if_neg hk]
      rcases hmem with hmem | rfl
      · exact h a hmem
      · simp at hk

theorem leafFree_insertPath :
    ∀ (p : List String) (es : List (String × PyVal)),
      (∀ e ∈ es, LeafFree e.2) →
      ∀ e ∈ insertPath es p, LeafFree e.2 := by
  intro p
  induction p with
  | nil => intro es h e he; exact h e he
  | cons k rest ih =>
    intro es h e he
    simp only [insertPath] at he
    rcases List.mem_map.mp he with ⟨a, ha, rfl⟩
    have hmem : a ∈ es ∨ a = (k, PyVal.dict []) := by
      revert ha; split
      · exact fun ha => Or.inl ha
      · intro ha
        rcases List.mem_append.mp ha with ha | ha
        · exact Or.inl ha
        · simp at ha; exact Or.inr ha
    by_cases hk : a.1 = k
    · simp only [if_pos hk]
      rcases hmem with hmem | rfl
      · have hl := h a hmem
        cases hv : a.2 with
        | dict cs =>
          rw [hv] at hl
          simp only [LeafFree] at hl ⊢
          exact ih cs hl
        | vals l => rw [hv] at hl; simp [LeafFree] at hl
        | nats l => rw [hv] at hl; simp [LeafFree] at hl
      · simp only [LeafFree]
        exact ih [] (by simp)
    · simp only [if_neg hk]
      rcases hmem with hmem | rfl
      · exact h a hmem
      · simp at hk

theorem catFold_allDepth (c0 : List String) (cr : List (List String)) :
    ∀ n, ∀ e ∈ catFold (c0 :: cr) n, UniformDepth cr.length e.2 := by
  intro n
  induction n with
  | zero => intro e he; simp [catFold] at he
  | succ n ih =>
    intro e he
    simp only [catFold, List.map_cons] at he
    have hlen : (cr.map (fun c => c.getD n "")).length = cr.length := by simp
    rw [← hlen]
    exact uniformDepth_insertPath _ _ _ (fun e' he' => by rw [hlen]; exact ih e' he') e he

/-- The top-level keys of `insertPath es (k :: rest)`: unchanged when `k` is
already a key, appended otherwise. -/
theorem keys_insertPath (es : List (String × PyVal)) (k : String)
    (rest : List String) :
    (insertPath es (k :: rest)).map (fun e => e.1) =
      if k ∈ es.map (fun e => e.1) then es.map (fun e => e.1)
      else es.map (fun e => e.1) ++ [k] := by
  simp only [insertPath]
  have hup : ∀ (l : List (String × PyVal)),
      (l.map (fun e =>
        if e.1 = k then
          (e.1, match e.2 with
                | .dict cs => PyVal.dict (insertPath cs rest) | v => v)
        else e)).map (fun e => e.1) = l.map (fun e => e.1) := by
    intro l
    rw [List.map_map]
    congr 1
    funext e
    by_cases h : e.1 = k <;> simp [h]
  have hany : (es.any fun e => e.1 = k) = true ↔ k ∈ es.map (fun e => e.1) := by
    simp [List.any_eq_true]
  split
  · rename_i h
    rw [hup, if_pos (hany.mp h)]
  · rename_i h
    rw [hup]
    rw [if_neg (fun hmem => h (hany.mpr hmem))]
    simp

theorem rootKeys_catFold (c0 : List String) (cr : List (List String)) :
    ∀ m, m ≤ c0.length →
      (catFold (c0 :: cr) m).map (fun e => e.1) = firstSeen (c0.take m) := by
  intro m
  induction m with
  | zero => intro _; rfl
  | succ m ih =>
    intro hm
    have hmlt : m < c0.length := by omega
    simp only [catFold, List.map_cons]
    rw [keys_insertPath, ih (by omega)]
    have hget : c0.getD m "" = c0[m] := by
      rw [List.getD_eq_getElem?_getD, List.getElem?_eq_getElem hmlt]
      rfl
    have htake : c0.take (m + 1) = c0.take m ++ [c0[m]] := by
      rw [List.take_succ, List.getElem?_eq_getElem hmlt]
      rfl
    rw [hget, htake]
    unfold firstSeen
    rw [List.foldl_append]
    rfl

theorem catFold_leafFree (cats : List (List String)) :
    ∀ n, ∀ e ∈ catFold cats n, LeafFree e.2 := by
  intro n
  induction n with
  | zero => intro e he; simp [catFold] at he
  | succ n ih =>
    intro e he
    simp only [catFold] at he
    exact leafFree_insertPath _ _ ih e he

/-- C3 fails as stated: leaves of `categorize` hold no row positions.  With no
category dimensions the `"__all__"` group stores the temporal series' values
(not the positions `[0, 1]`), and with one category dimension `["a", "a"]` the
leaf under `"a"` is an empty dict rather than the position list `[0, 1]`. -/
theorem spec_C3_counterexample :
    categorize [⟨2025, 1, 1, 0⟩, ⟨2025, 1, 2, 0⟩] [] =
      .dict [("__all__", .vals [⟨2025, 1, 1, 0⟩, ⟨2025, 1, 2, 0⟩])] ∧
    PyVal.vals [⟨2025, 1, 1, 0⟩, ⟨2025, 1, 2, 0⟩] ≠ PyVal.nats [0, 1] ∧
    categorize [⟨2025, 1, 1, 0⟩, ⟨2025, 1, 2, 0⟩] [["a", "a"]] =
      .dict [("a", .dict [])] ∧
    PyVal.dict [] ≠ PyVal.nats [0, 1] :=
  ⟨rfl, fun h => PyVal.noConfusion h, rfl, fun h => PyVal.noConfusion h⟩

/-- C3 amended: with zero category dimensions `categorize` returns the single
sentinel group `"__all__"` holding the temporal dimension's VALUES (one per
row, not the row positions); with one or more dimensions it builds the nested
key tree but stores no payload at all — every leaf is an empty dict, so no
list of row positions (or any other list) occurs anywhere in the result. -/
theorem spec_C3_amended :
    (∀ temporal : List DT,
      categorize temporal [] = .dict [("__all__", .vals temporal)]) ∧
    (∀ (temporal : List DT) (cats : List (List String)), cats ≠ [] →
      (∀ c ∈ cats, c.length = cats.headI.length) →
      LeafFree (categorize temporal cats)) := by
  refine ⟨fun t => rfl, fun t cats hne hlen => ?_⟩
  cases cats with
  | nil => exact absurd rfl hne
  | cons c0 cr =>
    show LeafFree (.dict (catFold (c0 :: cr) (c0 :: cr).headI.length))
    simp only [LeafFree]
    exact catFold_leafFree (c0 :: cr) _

/-- Witness for the amended C3 at concrete inputs. -/
theorem spec_C3_amended_witness :
    categorize [⟨2025, 1, 1, 0⟩] [] = .dict [("__all__", .vals [⟨2025, 1, 1, 0⟩])] ∧
    LeafFree (categorize [⟨2025, 1, 1, 0⟩, ⟨2025, 1, 2, 0⟩] [["a", "a"]]) :=
  ⟨spec_C3_amended.1 [⟨2025, 1, 1, 0⟩],
   spec_C3_amended.2 [⟨2025, 1, 1, 0⟩, ⟨2025, 1, 2, 0⟩] [["a", "a"]]
     (by decide) (by decide)⟩

/-- C9: for one or more category dimensions of equal positive length,
`categorize` builds a tree whose leaves all sit at depth equal to the number of
dimensions, and whose top-level keys appear in first-seen order of the first
dimension's values; on the two dimensions `["a","a","b"]` and `["x","y","x"]`
the result is exactly the two-level tree with first-level keys `["a","b"]` and
keys `["x","y"]` under `"a"`. -/
theorem spec_C9 :
    (∀ (temporal : List DT) (cats : List (List String)), cats ≠ [] →
      (∀ c ∈ cats, c.length = cats.headI.length) → 1 ≤ cats.headI.length →
      UniformDepth cats.length (categorize temporal cats) ∧
      rootKeys (categorize temporal cats) = firstSeen cats.headI) ∧
    categorize [⟨2025, 1, 1, 0⟩, ⟨2025, 1, 2, 0⟩, ⟨2025, 1, 3, 0⟩]
        [["a", "a", "b"], ["x", "y", "x"]] =
      .dict [("a", .dict [("x", .dict []), ("y", .dict [])]),
             ("b", .dict [("x", .dict [])])] := by
  refine ⟨fun temporal cats hne hlen hrows => ?_, rfl⟩
  cases cats with
  | nil => exact absurd rfl hne
  | cons c0 cr =>
    constructor
    · show UniformDepth (c0 :: cr).length (.dict (catFold (c0 :: cr) (c0 :: cr).headI.length))
      simp only [List.headI] at hrows ⊢
      obtain ⟨n, hn⟩ : ∃ n, c0.length = n + 1 := ⟨c0.length - 1, by omega⟩
      rw [hn]
      simp only [List.length_cons, UniformDepth]
      constructor
      · simp only [catFold, List.map_cons]
        exact insertPath_cons_ne_nil _ _ _
      · intro e he
        exact catFold_allDepth c0 cr (n + 1) e he
    · show (catFold (c0 :: cr) (c0 :: cr).headI.length).map (fun e => e.1)
        = firstSeen (c0 :: cr).headI
      simp only [List.headI]
      rw [rootKeys_catFold c0 cr c0.length (Nat.le_refl _), List.take_length]

/-- Witness for C9 on the claim's own two-dimension example. -/
theorem spec_C9_witness :
    UniformDepth 2 (categorize [⟨2025, 1, 1, 0⟩, ⟨2025, 1, 2, 0⟩, ⟨2025, 1, 3, 0⟩]
      [["a", "a", "b"], ["x", "y", "x"]]) ∧
    rootKeys (categorize [⟨2025, 1, 1, 0⟩, ⟨2025, 1, 2, 0⟩, ⟨2025, 1, 3, 0⟩]
      [["a", "a", "b"], ["x", "y", "x"]]) = ["a", "b"] :=
  have h := spec_C9.1 [⟨2025, 1, 1, 0⟩, ⟨2025, 1, 2, 0⟩, ⟨2025, 1, 3, 0⟩]
    [["a", "a", "b"], ["x", "y", "x"]] (by decide) (by decide) (by decide)
  ⟨h.1, h.2.trans rfl⟩

end Tmpacc
